import Mathlib

/-!
Verification of the fuzzy substring matcher in src/index.ts.

Strings are modelled as lists of characters. Target positions are natural
numbers. The scores, which JavaScript keeps in ordinary numbers, only ever
hold integers here, and are modelled with Int so that the subtractions in
the source are translated verbatim.

The characterLimit argument, a JavaScript object used as a finite map from
single characters to counts, is modelled as an association list whose
iteration order is the list order and whose property lookup is the first
matching key (a JavaScript object cannot hold the same key twice, so on the
images of actual inputs the two agree); a lookup of an absent key yields
none, which plays the role of undefined.
-/

/-- Lowercasing of a whole string, as performed by String.prototype.toLowerCase
on the simple one-byte alphabet the source cares about. -/
def strLower (s : List Char) : List Char := s.map Char.toLower

/-- The ascending list of positions at or after startIndex where character
occurs in target.  This is what the indexOf loop of findOccurences in the
source accumulates: it repeatedly takes the next index of the character from
startIndex on, so the produced list is exactly the positions i ≥ startIndex
with target[i] = character, in ascending order. -/
def findOccurences (target : List Char) (character : Char) (startIndex : Nat) : List Nat :=
  (List.range target.length).filter
    (fun i => startIndex ≤ i && target.getD i ' ' == character)

/-- JavaScript String.prototype.substring(a, b): the slice from the smaller of
the two indices (inclusive) to the larger (exclusive), clamped to the string.
In the source it is only applied with a ≤ b. -/
def substringJS (s : List Char) (a b : Nat) : List Char :=
  (s.take (max a b)).drop (min a b)

/-- The result record returned by matchFuzzy. -/
structure MatchResult where
  offset : Nat
  positions : List Nat
  extraChars : Int
  trailingChars : Int
deriving Repr, DecidableEq

/-- calculateExtraChars: the sum of the gaps (next - prev - 1) between
consecutive positions of a chain; 0 for an empty or singleton chain. -/
def calculateExtraChars : List Nat → Int
  | [] => 0
  | [_] => 0
  | p :: q :: rest => ((q : Int) - (p : Int) - 1) + calculateExtraChars (q :: rest)

/-- JavaScript property read charLimits[key] on the characterLimit object:
the value stored under the key, or none (undefined) when absent. -/
def jsLookup (charLimits : List (Char × Nat)) (key : Char) : Option Nat :=
  (charLimits.find? (fun kv => kv.1 == key)).map (fun kv => kv.2)

/-- hasLessThanMaximumCharacters: for every key of the limit object, count the
occurrences of the lowercased key inside target.substring(first, last) of the
chain and compare that count against charLimits[lowercased key].  When that
property read yields undefined (none) the JavaScript comparison
count > undefined is false, so such a key never rejects a chain. -/
def hasLessThanMaximumCharacters (target : List Char) (foundChars : List Nat)
    (charLimits : List (Char × Nat)) : Bool :=
  charLimits.all (fun kv =>
    match jsLookup charLimits kv.1.toLower with
    | some limit =>
        decide ((findOccurences
          (substringJS target (foundChars.headD 0) (foundChars.getLastD 0))
          kv.1.toLower 0).length ≤ limit)
    | none => true)

/-- One pass of result.forEach inside getPossibleCombinations for a fixed
occurrence o at a fixed depth: every set (visited by index, in order) that has
exactly depth entries and whose last entry lies strictly below o is extended
in place by o, and immediately after such an extension the traversal descends
one depth further (the recur argument; it is the identity when there is no
deeper level, mirroring the source's guard). -/
def gpcScanSets (depth o : Nat) (recur : List (List Nat) → List (List Nat)) :
    List Nat → List (List Nat) → List (List Nat)
  | [], res => res
  | i :: is, res =>
      let set := res.getD i []
      if set.length = depth ∧ set.getLastD 0 < o then
        gpcScanSets depth o recur is (recur (res.set i (set ++ [o])))
      else
        gpcScanSets depth o recur is res

/-- The loop over the occurrence list of the current depth in
getPossibleCombinations: each occurrence in turn is offered to every set. -/
def gpcScanOccs (depth : Nat) (recur : List (List Nat) → List (List Nat)) :
    List Nat → List (List Nat) → List (List Nat)
  | [], res => res
  | o :: os, res =>
      gpcScanOccs depth recur os (gpcScanSets depth o recur (List.range res.length) res)

/-- The recursion of getPossibleCombinations over depths 1, 2, ... .  The
first list argument is the suffix of the occurrence lists from the current
depth on; the fuel argument only drives the structural recursion and is
always instantiated with the length of that suffix, which the recursion
preserves, so the fuel-exhaustion branch is never taken on the calls made
below (see gpcDepth_cons). -/
def gpcDepthF : Nat → List (List Nat) → Nat → List (List Nat) → List (List Nat)
  | _, [], _, result => result
  | 0, _ :: _, _, result => result
  | fuel + 1, occs :: deeper, depth, result =>
      gpcScanOccs depth (fun r => gpcDepthF fuel deeper (depth + 1) r) occs result

/-- The depth recursion of getPossibleCombinations, entered at the given
depth with the suffix of occurrence lists from that depth on. -/
def gpcDepth (suffix : List (List Nat)) (depth : Nat) (result : List (List Nat)) :
    List (List Nat) :=
  gpcDepthF suffix.length suffix depth result

theorem gpcDepth_nil (depth : Nat) (result : List (List Nat)) :
    gpcDepth [] depth result = result := rfl

theorem gpcDepth_cons (occs : List Nat) (deeper : List (List Nat)) (depth : Nat)
    (result : List (List Nat)) :
    gpcDepth (occs :: deeper) depth result =
      gpcScanOccs depth (fun r => gpcDepth deeper (depth + 1) r) occs result := rfl

/-- getPossibleCombinations: seed one singleton chain per occurrence of the
first query character, run the depth recursion from depth 1 when there are
further occurrence lists (gpcDepth of the empty suffix is the identity, which
absorbs the source's length > 1 guard), then drop every chain that did not
reach full length (the source's splice loop is a stable in-place filter). -/
def getPossibleCombinations (characterPositions : List (List Nat)) : List (List Nat) :=
  let seeds := (characterPositions.headD []).map (fun occurence => [occurence])
  let result := gpcDepth (characterPositions.drop 1) 1 seeds
  result.filter (fun set => set.length == characterPositions.length)

/-- The startIndex expression of the indexing loop of matchFuzzy:
occurencesPerChar.length ? occurencesPerChar[i-1][0] + 1 : 0, where the list
accessed at i-1 is the one pushed last. -/
def buildStart (acc : List (List Nat)) : Nat :=
  match acc.getLast? with
  | none => 0
  | some prev => prev.headD 0 + 1

/-- The indexing loop of matchFuzzy: for each query character in turn, collect
its occurrence list in the (lowercased) target starting at 0 for the first
character and at (first occurrence of the previous character) + 1 afterwards,
failing the whole match as soon as one list comes out empty. -/
def buildOccAux (targetLower : List Char) : List Char → List (List Nat) →
    Option (List (List Nat))
  | [], acc => some acc
  | c :: rest, acc =>
      let occ := findOccurences targetLower c (buildStart acc)
      if occ.isEmpty then none else buildOccAux targetLower rest (acc ++ [occ])

/-- The update of bestCombination inside the selection loop of matchFuzzy:
if (!bestCombination || bestCombination[0] > extraCharCount) it becomes
[extraCharCount, set], otherwise it is left alone. -/
def bestUpdate : Option (Int × List Nat) → Int → List Nat → Int × List Nat
  | none, extra, set => (extra, set)
  | some b, extra, set => if b.1 > extra then (extra, set) else b

/-- The selection loop of matchFuzzy over the enumerated combinations: skip
chains that fail the character-limit filter, keep a running best by strictly
smaller extraChars (bestUpdate), and stop as soon as the running best
reaches 0. -/
def selectBest (targetLower : List Char) (charLimits : List (Char × Nat)) :
    List (List Nat) → Option (Int × List Nat) → Option (Int × List Nat)
  | [], best => best
  | set :: rest, best =>
      if hasLessThanMaximumCharacters targetLower set charLimits then
        let bestNew := bestUpdate best (calculateExtraChars set) set
        if bestNew.1 = 0 then some bestNew
        else selectBest targetLower charLimits rest (some bestNew)
      else selectBest targetLower charLimits rest best

/-- matchFuzzy: degenerate-input guard, indexing, enumeration, selection, and
assembly of the MatchResult. -/
def matchFuzzy (query target : List Char) (characterLimit : List (Char × Nat)) :
    Option MatchResult :=
  if target.isEmpty || query.isEmpty || target.length < query.length then none
  else
    let queryLowerCased := strLower query
    let targetLowerCased := strLower target
    match buildOccAux targetLowerCased queryLowerCased [] with
    | none => none
    | some occurencesPerChar =>
      let combinations := getPossibleCombinations occurencesPerChar
      match selectBest targetLowerCased characterLimit combinations none with
      | none => none
      | some best =>
        some { offset := best.2.headD 0
             , positions := best.2
             , extraChars := best.1
             , trailingChars := (target.length : Int) - ((best.2.getLastD 0 : Int) + 1) }

/-- The exported comparator (called sort in the source): ascending extraChars,
then ascending offset, then ascending trailingChars, encoded as -1 / 0 / 1. -/
def sort (a b : MatchResult) : Int :=
  if a.extraChars ≠ b.extraChars then if a.extraChars < b.extraChars then -1 else 1
  else if a.offset ≠ b.offset then if a.offset < b.offset then -1 else 1
  else if a.trailingChars ≠ b.trailingChars then
    if a.trailingChars < b.trailingChars then -1 else 1
  else 0

/-- Modelled from the spec: one step of the Scorer/Selector selection rule of
section 4.3 — replace the running best only when the new chain's extraChars
is strictly smaller, so that on ties the chain found earlier wins.  Together
with specSelect below it is the spec's selection written without the source's
early exit, to be compared against selectBest, the loop translated from the
source. -/
def specStep : Option (Int × List Nat) → List Nat → Option (Int × List Nat)
  | none, c => some (calculateExtraChars c, c)
  | some b, c =>
      if calculateExtraChars c < b.1 then some (calculateExtraChars c, c) else some b

/-- Modelled from the spec, section 4.3: iterate the surviving chains with
specStep, keeping a running best by smallest extraChars with earlier-found
chains winning ties, and no early exit. -/
def specSelect (targetLower : List Char) (charLimits : List (Char × Nat))
    (chains : List (List Nat)) : Option (Int × List Nat) :=
  (chains.filter (fun c => hasLessThanMaximumCharacters targetLower c charLimits)).foldl
    specStep none

/-! ### Basic facts about findOccurences -/

theorem mem_findOccurences {target : List Char} {character : Char} {startIndex p : Nat} :
    p ∈ findOccurences target character startIndex ↔
      startIndex ≤ p ∧ p < target.length ∧ target.getD p ' ' = character := by
  simp only [findOccurences, List.mem_filter, List.mem_range, Bool.and_eq_true,
    decide_eq_true_eq, beq_iff_eq]
  tauto

theorem pairwise_findOccurences (target : List Char) (character : Char) (startIndex : Nat) :
    List.Pairwise (· < ·) (findOccurences target character startIndex) :=
  List.Pairwise.filter _ (List.pairwise_lt_range _)

theorem headD_mem {l : List Nat} (h : l ≠ []) : l.headD 0 ∈ l := by
  cases l with
  | nil => exact absurd rfl h
  | cons a t => simp

theorem headD_le_of_mem {l : List Nat} {p : Nat}
    (hs : List.Pairwise (· < ·) l) (hp : p ∈ l) : l.headD 0 ≤ p := by
  cases l with
  | nil => cases hp
  | cons a t =>
    rcases List.mem_cons.mp hp with rfl | h
    · simp
    · exact Nat.le_of_lt ((List.pairwise_cons.mp hs).1 _ h)

theorem findOccurences_self_ne_nil {t : List Char} {i : Nat} (hi : i < t.length) :
    findOccurences t (t.getD i ' ') i ≠ [] := by
  intro h
  have : i ∈ findOccurences t (t.getD i ' ') i :=
    mem_findOccurences.mpr ⟨Nat.le_refl i, hi, rfl⟩
  rw [h] at this
  cases this

theorem findOccurences_self_headD {t : List Char} {i : Nat} (hi : i < t.length) :
    (findOccurences t (t.getD i ' ') i).headD 0 = i := by
  have hmem : i ∈ findOccurences t (t.getD i ' ') i :=
    mem_findOccurences.mpr ⟨Nat.le_refl i, hi, rfl⟩
  have hle : (findOccurences t (t.getD i ' ') i).headD 0 ≤ i :=
    headD_le_of_mem (pairwise_findOccurences t (t.getD i ' ') i) hmem
  have hge : i ≤ (findOccurences t (t.getD i ' ') i).headD 0 := by
    have hne : findOccurences t (t.getD i ' ') i ≠ [] := findOccurences_self_ne_nil hi
    have := mem_findOccurences.mp (headD_mem hne)
    exact this.1
  omega

theorem length_findOccurences_zero (s : List Char) (c : Char) :
    (findOccurences s c 0).length = s.countP (fun x => x == c) := by
  induction s with
  | nil => simp [findOccurences]
  | cons x xs ih =>
    rw [findOccurences] at ih ⊢
    simp only [List.length_cons, List.range_succ_eq_map, List.filter_cons,
      List.filter_map, List.countP_cons]
    simp only [Nat.zero_le, decide_True, Bool.true_and, List.getD_cons_zero,
      List.getD_cons_succ, Function.comp_def, List.length_map]
    rw [← ih]
    by_cases hx : (x == c) = true <;> simp [hx, Nat.add_comm]

/-! ### Facts about calculateExtraChars -/

theorem calculateExtraChars_nonneg {l : List Nat} (h : List.Chain' (· < ·) l) :
    0 ≤ calculateExtraChars l := by
  induction l with
  | nil => simp [calculateExtraChars]
  | cons p t ih =>
    cases t with
    | nil => simp [calculateExtraChars]
    | cons q r =>
      obtain ⟨hpq, ht⟩ := List.chain'_cons.mp h
      have h1 := ih ht
      rw [calculateExtraChars]
      omega

theorem calculateExtraChars_eq_sum (l : List Nat) :
    calculateExtraChars l =
      ∑ i ∈ Finset.range (l.length - 1),
        ((l.getD (i + 1) 0 : Int) - (l.getD i 0 : Int) - 1) := by
  induction l with
  | nil => simp [calculateExtraChars]
  | cons p t ih =>
    cases t with
    | nil => simp [calculateExtraChars]
    | cons q r =>
      rw [calculateExtraChars, ih]
      have hlen : (p :: q :: r).length - 1 = ((q :: r).length - 1) + 1 := by
        simp
      rw [hlen, Finset.sum_range_succ']
      have e1 : ∀ x ∈ Finset.range ((q :: r).length - 1),
          (((p :: q :: r).getD (x + 1 + 1) 0 : Int) - ((p :: q :: r).getD (x + 1) 0 : Int) - 1)
            = (((q :: r).getD (x + 1) 0 : Int) - ((q :: r).getD x 0 : Int) - 1) := by
        intro x _
        simp [List.getD_cons_succ]
      rw [Finset.sum_congr rfl e1]
      simp [List.getD_cons_succ, List.getD_cons_zero]
      ring

theorem calculateExtraChars_eq_zero_iff {l : List Nat} (h : List.Chain' (· < ·) l) :
    calculateExtraChars l = 0 ↔ List.Chain' (fun a b => b = a + 1) l := by
  induction l with
  | nil => simp [calculateExtraChars]
  | cons p t ih =>
    cases t with
    | nil => simp [calculateExtraChars]
    | cons q r =>
      obtain ⟨hpq, ht⟩ := List.chain'_cons.mp h
      have h1 := ih ht
      have h2 := calculateExtraChars_nonneg ht
      rw [calculateExtraChars, List.chain'_cons, ← h1]
      omega

/-! ### The character-limit filter -/

theorem hasLess_eq_false_iff (t : List Char) (fc : List Nat) (cl : List (Char × Nat)) :
    hasLessThanMaximumCharacters t fc cl = false ↔
      ∃ kv ∈ cl, ∃ limit, jsLookup cl kv.1.toLower = some limit ∧
        limit <
          (substringJS t (fc.headD 0) (fc.getLastD 0)).countP
            (fun ch => ch == kv.1.toLower) := by
  rw [hasLessThanMaximumCharacters]
  rw [List.all_eq_false]
  constructor
  · rintro ⟨kv, hmem, hfail⟩
    refine ⟨kv, hmem, ?_⟩
    rcases hlook : jsLookup cl kv.1.toLower with _ | limit
    · simp only [hlook] at hfail
      exact absurd trivial hfail
    · refine ⟨limit, rfl, ?_⟩
      simp only [hlook, Bool.not_eq_true, decide_eq_false_iff_not, Nat.not_le] at hfail
      rw [length_findOccurences_zero] at hfail
      exact hfail
  · rintro ⟨kv, hmem, limit, hlook, hcount⟩
    refine ⟨kv, hmem, ?_⟩
    simp only [hlook, Bool.not_eq_true, decide_eq_false_iff_not, Nat.not_le]
    rw [length_findOccurences_zero]
    exact hcount

/-! ### Invariants of the combination enumerator -/

/-- A chain is well formed with respect to the full family of occurrence
lists when it is strictly increasing and its j-th entry is drawn from the
j-th occurrence list. -/
def ChainOK (fullLists : List (List Nat)) (s : List Nat) : Prop :=
  List.Chain' (· < ·) s ∧ ∀ j (h : j < s.length), s.get ⟨j, h⟩ ∈ fullLists.getD j []

theorem chainOK_nil (L : List (List Nat)) : ChainOK L [] := by
  refine ⟨List.chain'_nil, ?_⟩
  intro j h
  simp at h

theorem chainOK_singleton {L : List (List Nat)} {o : Nat} (h : o ∈ L.getD 0 []) :
    ChainOK L [o] := by
  refine ⟨List.chain'_singleton o, ?_⟩
  intro j hj
  simp only [List.length_singleton, Nat.lt_one_iff] at hj
  subst hj
  simpa using h

theorem ChainOK.extend {L : List (List Nat)} {s : List Nat} {o : Nat}
    (hs : ChainOK L s) (ho : o ∈ L.getD s.length []) (hlast : s.getLastD 0 < o) :
    ChainOK L (s ++ [o]) := by
  constructor
  · rw [List.chain'_append]
    refine ⟨hs.1, List.chain'_singleton o, ?_⟩
    intro x hx y hy
    simp only [List.head?_cons, Option.mem_def, Option.some.injEq] at hy
    subst hy
    cases s with
    | nil => simp at hx
    | cons a t =>
      have hx2 : (a :: t).getLast? = some x := hx
      have : (a :: t).getLastD 0 = x := by
        rw [List.getLastD_eq_getLast?, hx2]
        rfl
      rw [← this]
      exact hlast
  · intro j hj
    rw [List.length_append, List.length_singleton] at hj
    rcases Nat.lt_or_ge j s.length with hlt | hge
    · have : (s ++ [o]).get ⟨j, by simp; omega⟩ = s.get ⟨j, hlt⟩ := by
        simp only [List.get_eq_getElem]
        exact List.getElem_append_left hlt
      rw [this]
      exact hs.2 j hlt
    · have hj' : j = s.length := by omega
      subst hj'
      have : (s ++ [o]).get ⟨s.length, by simp⟩ = o := by
        simp only [List.get_eq_getElem]
        rw [List.getElem_append_right (Nat.le_refl _)]
        simp
      rw [this]
      exact ho

theorem scanSets_chainOK (L : List (List Nat)) (depth o : Nat)
    (recur : List (List Nat) → List (List Nat))
    (hrec : ∀ r, (∀ s ∈ r, ChainOK L s) → ∀ s ∈ recur r, ChainOK L s)
    (ho : o ∈ L.getD depth []) :
    ∀ (idxs : List Nat) (res : List (List Nat)),
      (∀ s ∈ res, ChainOK L s) →
      ∀ s ∈ gpcScanSets depth o recur idxs res, ChainOK L s := by
  intro idxs
  induction idxs with
  | nil =>
    intro res h
    simpa [gpcScanSets] using h
  | cons i is ih =>
    intro res h
    simp only [gpcScanSets]
    split
    case isTrue hcond =>
      apply ih
      apply hrec
      intro s hs
      rcases List.mem_or_eq_of_mem_set hs with h1 | rfl
      · exact h _ h1
      · have hset : ChainOK L (res.getD i []) := by
          rcases Nat.lt_or_ge i res.length with hi | hi
          · rw [List.getD_eq_getElem res [] hi]
            exact h _ (List.getElem_mem hi)
          · rw [List.getD_eq_default res [] hi]
            exact chainOK_nil L
        exact hset.extend (hcond.1.symm ▸ ho) hcond.2
    case isFalse =>
      exact ih res h

theorem scanOccs_chainOK (L : List (List Nat)) (depth : Nat)
    (recur : List (List Nat) → List (List Nat))
    (hrec : ∀ r, (∀ s ∈ r, ChainOK L s) → ∀ s ∈ recur r, ChainOK L s) :
    ∀ (occs : List Nat), (∀ x ∈ occs, x ∈ L.getD depth []) →
      ∀ res, (∀ s ∈ res, ChainOK L s) →
      ∀ s ∈ gpcScanOccs depth recur occs res, ChainOK L s := by
  intro occs
  induction occs with
  | nil =>
    intro _ res h
    simpa [gpcScanOccs] using h
  | cons o os ih =>
    intro hoccs res h
    simp only [gpcScanOccs]
    exact ih (fun x hx => hoccs x (List.mem_cons_of_mem _ hx)) _
      (scanSets_chainOK L depth o recur hrec (hoccs o (List.mem_cons_self _ _)) _ _ h)

theorem gpcDepth_chainOK (L : List (List Nat)) :
    ∀ (suffix : List (List Nat)) (depth : Nat),
      (∀ k x, x ∈ suffix.getD k [] → x ∈ L.getD (depth + k) []) →
      ∀ res, (∀ s ∈ res, ChainOK L s) →
      ∀ s ∈ gpcDepth suffix depth res, ChainOK L s := by
  intro suffix
  induction suffix with
  | nil =>
    intro depth _ res h
    rw [gpcDepth_nil]
    exact h
  | cons occs deeper ih =>
    intro depth hsub res h
    rw [gpcDepth_cons]
    apply scanOccs_chainOK
    · intro r hr
      apply ih (depth + 1)
      · intro k x hx
        have e : depth + 1 + k = depth + (k + 1) := by omega
        rw [e]
        exact hsub (k + 1) x (by simpa using hx)
      · exact hr
    · intro x hx
      have := hsub 0 x (by simpa using hx)
      simpa using this
    · exact h

/-! ### The first chain is left alone once it is longer than every depth
still to be processed -/

theorem scanSets_head (depth o : Nat) (s0 : List Nat)
    (recur : List (List Nat) → List (List Nat))
    (hrec : ∀ r, ∃ r2, recur (s0 :: r) = s0 :: r2)
    (hne : s0.length ≠ depth) :
    ∀ (idxs : List Nat) (rest : List (List Nat)),
      ∃ rest2, gpcScanSets depth o recur idxs (s0 :: rest) = s0 :: rest2 := by
  intro idxs
  induction idxs with
  | nil =>
    intro rest
    exact ⟨rest, by simp [gpcScanSets]⟩
  | cons i is ih =>
    intro rest
    cases i with
    | zero =>
      simp only [gpcScanSets, List.getD_cons_zero]
      rw [if_neg]
      · exact ih rest
      · intro hcon
        exact hne hcon.1
    | succ j =>
      simp only [gpcScanSets, List.getD_cons_succ]
      split
      case isTrue hcond =>
        rw [show (s0 :: rest).set (j + 1) (rest.getD j [] ++ [o])
              = s0 :: rest.set j (rest.getD j [] ++ [o]) from rfl]
        obtain ⟨r2, hr2⟩ := hrec (rest.set j (rest.getD j [] ++ [o]))
        rw [hr2]
        exact ih r2
      case isFalse =>
        exact ih rest

theorem scanOccs_head (depth : Nat) (s0 : List Nat)
    (recur : List (List Nat) → List (List Nat))
    (hrec : ∀ r, ∃ r2, recur (s0 :: r) = s0 :: r2)
    (hne : s0.length ≠ depth) :
    ∀ (occs : List Nat) (rest : List (List Nat)),
      ∃ rest2, gpcScanOccs depth recur occs (s0 :: rest) = s0 :: rest2 := by
  intro occs
  induction occs with
  | nil =>
    intro rest
    exact ⟨rest, by simp [gpcScanOccs]⟩
  | cons o os ih =>
    intro rest
    simp only [gpcScanOccs]
    obtain ⟨r2, hr2⟩ := scanSets_head depth o s0 recur hrec hne
      (List.range (s0 :: rest).length) rest
    rw [hr2]
    exact ih r2

theorem gpcDepth_head :
    ∀ (suffix : List (List Nat)) (depth : Nat) (s0 : List Nat),
      depth + suffix.length ≤ s0.length →
      ∀ rest, ∃ rest2, gpcDepth suffix depth (s0 :: rest) = s0 :: rest2 := by
  intro suffix
  induction suffix with
  | nil =>
    intro depth s0 _ rest
    exact ⟨rest, gpcDepth_nil _ _⟩
  | cons occs deeper ih =>
    intro depth s0 hlen rest
    rw [gpcDepth_cons]
    have hlen2 : depth + 1 + deeper.length ≤ s0.length := by
      simp only [List.length_cons] at hlen
      omega
    apply scanOccs_head
    · intro r
      exact ih (depth + 1) s0 hlen2 r
    · intro hcon
      omega

/-! ### The first seed grows into the chain of first occurrences -/

theorem gpcDepth_stair :
    ∀ (suffix : List (List Nat)) (depth : Nat) (s0 : List Nat) (rest : List (List Nat)),
      s0.length = depth →
      (∀ l ∈ suffix, l ≠ []) →
      List.Chain' (fun l1 l2 => l1.headD 0 < l2.headD 0) suffix →
      (∀ l ∈ suffix.head?, s0.getLastD 0 < l.headD 0) →
      ∃ rest2,
        gpcDepth suffix depth (s0 :: rest) =
          (s0 ++ suffix.map (fun l => l.headD 0)) :: rest2 := by
  intro suffix
  induction suffix with
  | nil =>
    intro depth s0 rest _ _ _ _
    exact ⟨rest, by simp [gpcDepth_nil]⟩
  | cons occs deeper ih =>
    intro depth s0 rest hlen hnonnil hchain hlink
    obtain ⟨hdlink, hdchain⟩ := List.chain'_cons'.mp hchain
    rcases occs with _ | ⟨o0, os⟩
    · exact absurd rfl (hnonnil [] (List.mem_cons_self _ _))
    rw [gpcDepth_cons]
    simp only [gpcScanOccs, List.length_cons, List.range_succ_eq_map]
    simp only [gpcScanSets, List.getD_cons_zero]
    rw [if_pos ⟨hlen, by simpa using hlink (o0 :: os) rfl⟩]
    rw [show (s0 :: rest).set 0 (s0 ++ [o0]) = (s0 ++ [o0]) :: rest from rfl]
    have hstep : ∃ r2,
        gpcDepth deeper (depth + 1) ((s0 ++ [o0]) :: rest) =
          ((s0 ++ [o0]) ++ deeper.map (fun l => l.headD 0)) :: r2 := by
      apply ih (depth + 1) (s0 ++ [o0]) rest
      · simp [hlen]
      · intro l hl
        exact hnonnil l (List.mem_cons_of_mem _ hl)
      · exact hdchain
      · intro l hl
        rw [List.getLastD_concat]
        simpa using hdlink l hl
    obtain ⟨r2, hr2⟩ := hstep
    rw [hr2]
    set s0F : List Nat := (s0 ++ [o0]) ++ deeper.map (fun l => l.headD 0) with hs0F
    have hs0Feq : s0F = s0 ++ ((o0 :: os) :: deeper).map (fun l => l.headD 0) := by
      simp [hs0F]
    have hlenF : s0F.length = depth + 1 + deeper.length := by
      simp [hs0F, hlen]
      omega
    have hneF : s0F.length ≠ depth := by omega
    have hrecF : ∀ r, ∃ r2, gpcDepth deeper (depth + 1) (s0F :: r) = s0F :: r2 := by
      intro r
      exact gpcDepth_head deeper (depth + 1) s0F (by omega) r
    obtain ⟨r3, hr3⟩ := scanSets_head depth o0 s0F (fun r => gpcDepth deeper (depth + 1) r)
      hrecF hneF (List.map (fun n => n + 1) (List.range rest.length)) r2
    rw [hr3]
    obtain ⟨r4, hr4⟩ := scanOccs_head depth s0F (fun r => gpcDepth deeper (depth + 1) r)
      hrecF hneF os r3
    rw [hr4]
    exact ⟨r4, by rw [hs0Feq]⟩

/-! ### Top-level facts about getPossibleCombinations -/

theorem getPossibleCombinations_sound (lists : List (List Nat)) :
    ∀ s ∈ getPossibleCombinations lists, s.length = lists.length ∧ ChainOK lists s := by
  intro s hs
  simp only [getPossibleCombinations, List.mem_filter, beq_iff_eq] at hs
  obtain ⟨hmem, hlen⟩ := hs
  refine ⟨hlen, ?_⟩
  have hseeds : ∀ t ∈ (lists.headD []).map (fun o => [o]), ChainOK lists t := by
    intro t ht
    simp only [List.mem_map] at ht
    obtain ⟨o, ho, rfl⟩ := ht
    apply chainOK_singleton
    cases lists with
    | nil => simp at ho
    | cons l0 ls => simpa using ho
  have hsub : ∀ k x, x ∈ (lists.drop 1).getD k [] → x ∈ lists.getD (1 + k) [] := by
    intro k x hx
    cases lists with
    | nil => simp at hx
    | cons l0 ls =>
      simp only [List.drop_succ_cons, List.drop_zero] at hx
      rw [Nat.add_comm 1 k]
      simpa using hx
  exact gpcDepth_chainOK lists (lists.drop 1) 1 hsub _ hseeds s hmem

theorem getPossibleCombinations_head (lists : List (List Nat))
    (hnil : lists ≠ []) (hne : ∀ l ∈ lists, l ≠ [])
    (hchain : List.Chain' (fun l1 l2 => l1.headD 0 < l2.headD 0) lists) :
    ∃ rest, getPossibleCombinations lists =
      (lists.map (fun l => l.headD 0)) :: rest := by
  rcases lists with _ | ⟨l0, ls⟩
  · exact absurd rfl hnil
  rcases l0 with _ | ⟨h0, t0⟩
  · exact absurd rfl (hne [] (List.mem_cons_self _ _))
  obtain ⟨hdlink, hdchain⟩ := List.chain'_cons'.mp hchain
  obtain ⟨r2, hr2⟩ := gpcDepth_stair ls 1 [h0] (t0.map (fun o => [o])) rfl
    (fun l hl => hne l (List.mem_cons_of_mem _ hl)) hdchain
    (by intro l hl; simpa using hdlink l hl)
  simp only [getPossibleCombinations, List.drop_succ_cons, List.drop_zero, List.headD_cons,
    List.map_cons]
  rw [hr2]
  rw [List.filter_cons]
  have hpred : ((([h0] ++ ls.map fun l => l.headD 0).length
      == ((h0 :: t0) :: ls).length) = true) := by
    simp
  rw [if_pos hpred]
  refine ⟨List.filter (fun set => set.length == ((h0 :: t0) :: ls).length) r2, ?_⟩
  simp

/-! ### Characterisation of the occurrence-list builder -/

/-- The lower bound used for the i-th occurrence list, read off from the
final family of lists: 0 for the first query character and (first occurrence
of the previous character) + 1 afterwards. -/
def occBound (lists : List (List Nat)) (i : Nat) : Nat :=
  if i = 0 then 0 else (lists.getD (i - 1) []).headD 0 + 1

theorem buildStart_nil : buildStart [] = 0 := rfl

theorem buildStart_concat (acc : List (List Nat)) (occ : List Nat) :
    buildStart (acc ++ [occ]) = occ.headD 0 + 1 := by
  rw [buildStart, List.getLast?_concat]

theorem buildOccAux_spec (t : List Char) :
    ∀ (q : List Char) (acc lists : List (List Nat)),
      buildOccAux t q acc = some lists →
      lists.length = acc.length + q.length ∧
      lists.take acc.length = acc ∧
      ∀ k, k < q.length →
        lists.getD (acc.length + k) [] =
            findOccurences t (q.getD k ' ') (occBound lists (acc.length + k)) ∧
          lists.getD (acc.length + k) [] ≠ [] := by
  intro q
  induction q with
  | nil =>
    intro acc lists h
    simp only [buildOccAux, Option.some.injEq] at h
    subst h
    refine ⟨by simp, by simp, ?_⟩
    intro k hk
    simp at hk
  | cons c rest ih =>
    intro acc lists h
    simp only [buildOccAux] at h
    split at h
    case isTrue hocc => simp at h
    case isFalse hocc =>
      obtain ⟨ih1, ih2, ih3⟩ := ih _ lists h
      simp only [List.length_append, List.length_singleton] at ih1 ih2 ih3
      have hocc2 : findOccurences t c (buildStart acc) ≠ [] := by
        intro hcon
        exact hocc (by rw [hcon]; rfl)
      have htake : lists.take acc.length = acc := by
        have e := congrArg (fun l => List.take acc.length l) ih2
        simp only at e
        rw [List.take_take] at e
        have e2 : min acc.length (acc.length + 1) = acc.length := by omega
        rw [e2] at e
        rw [e]
        exact List.take_left acc _
      have hoccD : lists.getD acc.length [] = findOccurences t c (buildStart acc) := by
        have e := congrArg (fun l => List.getD l acc.length []) ih2
        simp only [List.getD_eq_getElem?_getD] at e
        rw [List.getElem?_take_of_lt (by omega), List.getElem?_concat_length] at e
        simp only [List.getD_eq_getElem?_getD]
        rw [e]
        rfl
      have hboundD : occBound lists acc.length = buildStart acc := by
        rcases Nat.eq_zero_or_pos acc.length with hz | hpos
        · have hacc : acc = [] := List.length_eq_zero.mp hz
          subst hacc
          simp [occBound, buildStart_nil]
        · have hacc : acc ≠ [] := by
            intro hcon
            subst hcon
            simp at hpos
          rw [occBound, if_neg (by omega)]
          rw [buildStart, List.getLast?_eq_getLast_of_ne_nil hacc]
          have e : lists.getD (acc.length - 1) [] = acc.getLast hacc := by
            have e1 := congrArg (fun l => List.getD l (acc.length - 1) []) htake
            simp only [List.getD_eq_getElem?_getD] at e1
            rw [List.getElem?_take_of_lt (by omega)] at e1
            rw [List.getD_eq_getElem?_getD, e1]
            rw [List.getLast_eq_getElem]
            rw [List.getElem?_eq_getElem (by omega)]
            rfl
          rw [e]
      refine ⟨by simp only [List.length_cons]; omega, htake, ?_⟩
      intro k hk
      simp only [List.length_cons] at hk
      cases k with
      | zero =>
        simp only [Nat.add_zero, List.getD_cons_zero]
        rw [hoccD, hboundD]
        exact ⟨rfl, hocc2⟩
      | succ j =>
        have hidx : acc.length + (j + 1) = acc.length + 1 + j := by omega
        rw [hidx]
        have h3 := ih3 j (by omega)
        simpa using h3

theorem buildOcc_lists_spec (t q : List Char) (lists : List (List Nat))
    (h : buildOccAux t q [] = some lists) :
    lists.length = q.length ∧
    ∀ k, k < q.length →
      lists.getD k [] = findOccurences t (q.getD k ' ') (occBound lists k) ∧
      lists.getD k [] ≠ [] := by
  obtain ⟨h1, _, h3⟩ := buildOccAux_spec t q [] lists h
  simp only [List.length_nil, Nat.zero_add] at h1 h3
  exact ⟨h1, h3⟩

theorem buildOcc_nonnil (t q : List Char) (lists : List (List Nat))
    (h : buildOccAux t q [] = some lists) :
    ∀ l ∈ lists, l ≠ [] := by
  obtain ⟨h1, h3⟩ := buildOcc_lists_spec t q lists h
  intro l hl
  obtain ⟨k, hk, hkeq⟩ := List.mem_iff_getElem.mp hl
  have h2 := (h3 k (by omega)).2
  rw [List.getD_eq_getElem lists [] hk] at h2
  rw [← hkeq]
  exact h2

theorem buildOcc_chain (t q : List Char) (lists : List (List Nat))
    (h : buildOccAux t q [] = some lists) :
    List.Chain' (fun l1 l2 => l1.headD 0 < l2.headD 0) lists := by
  obtain ⟨h1, h3⟩ := buildOcc_lists_spec t q lists h
  have hgd : ∀ (j : Nat) (hj : j < lists.length), lists.get ⟨j, hj⟩ = lists.getD j [] := by
    intro j hj
    rw [List.get_eq_getElem, List.getD_eq_getElem lists [] hj]
  rw [List.chain'_iff_get]
  intro i hi
  have hi1 : i + 1 < lists.length := by omega
  have hnext := h3 (i + 1) (by omega)
  have hb : occBound lists (i + 1) = (lists.getD i []).headD 0 + 1 := by
    rw [occBound, if_neg (by omega)]
    simp
  have hmem : (lists.getD (i + 1) []).headD 0 ∈
      findOccurences t (q.getD (i + 1) ' ') (occBound lists (i + 1)) := by
    rw [← hnext.1]
    exact headD_mem hnext.2
  have hge := (mem_findOccurences.mp hmem).1
  rw [hb] at hge
  rw [hgd i (by omega), hgd (i + 1) hi1]
  omega

/-! ### Facts about the selection loop -/

theorem selectBest_mem (tL : List Char) (cl : List (Char × Nat)) :
    ∀ (l : List (List Nat)) (b : Option (Int × List Nat)) (e : Int) (s : List Nat),
      selectBest tL cl l b = some (e, s) →
      b = some (e, s) ∨
        (s ∈ l ∧ e = calculateExtraChars s ∧
          hasLessThanMaximumCharacters tL s cl = true) := by
  intro l
  induction l with
  | nil =>
    intro b e s h
    simp only [selectBest] at h
    exact Or.inl h
  | cons c rest ih =>
    intro b e s h
    rcases b with _ | ⟨eb, sb⟩ <;> simp only [selectBest, bestUpdate] at h
    · split at h
      case isTrue hfilt =>
        split at h
        case isTrue hz =>
          simp only [Option.some.injEq, Prod.mk.injEq] at h
          obtain ⟨he, hs⟩ := h
          subst he
          subst hs
          exact Or.inr ⟨List.mem_cons_self _ _, rfl, hfilt⟩
        case isFalse hz =>
          rcases ih _ _ _ h with h1 | h1
          · simp only [Option.some.injEq, Prod.mk.injEq] at h1
            obtain ⟨he, hs⟩ := h1
            subst he
            subst hs
            exact Or.inr ⟨List.mem_cons_self _ _, rfl, hfilt⟩
          · exact Or.inr ⟨List.mem_cons_of_mem _ h1.1, h1.2.1, h1.2.2⟩
      case isFalse hfilt =>
        rcases ih _ _ _ h with h1 | h1
        · simp at h1
        · exact Or.inr ⟨List.mem_cons_of_mem _ h1.1, h1.2.1, h1.2.2⟩
    · split at h
      case isTrue hfilt =>
        split at h
        case isTrue hcmp =>
          split at h
          case isTrue hz =>
            simp only [Option.some.injEq, Prod.mk.injEq] at h
            obtain ⟨he, hs⟩ := h
            subst he
            subst hs
            exact Or.inr ⟨List.mem_cons_self _ _, rfl, hfilt⟩
          case isFalse hz =>
            rcases ih _ _ _ h with h1 | h1
            · simp only [Option.some.injEq, Prod.mk.injEq] at h1
              obtain ⟨he, hs⟩ := h1
              subst he
              subst hs
              exact Or.inr ⟨List.mem_cons_self _ _, rfl, hfilt⟩
            · exact Or.inr ⟨List.mem_cons_of_mem _ h1.1, h1.2.1, h1.2.2⟩
        case isFalse hcmp =>
          split at h
          case isTrue hz =>
            exact Or.inl h
          case isFalse hz =>
            rcases ih _ _ _ h with h1 | h1
            · exact Or.inl h1
            · exact Or.inr ⟨List.mem_cons_of_mem _ h1.1, h1.2.1, h1.2.2⟩
      case isFalse hfilt =>
        rcases ih _ _ _ h with h1 | h1
        · exact Or.inl h1
        · exact Or.inr ⟨List.mem_cons_of_mem _ h1.1, h1.2.1, h1.2.2⟩

theorem selectBest_some_ne_none (tL : List Char) (cl : List (Char × Nat)) :
    ∀ (l : List (List Nat)) (bb : Int × List Nat),
      selectBest tL cl l (some bb) ≠ none := by
  intro l
  induction l with
  | nil =>
    intro bb
    simp [selectBest]
  | cons c rest ih =>
    intro bb
    simp only [selectBest, bestUpdate]
    split
    · split
      · split
        · simp
        · exact ih _
      · split
        · simp
        · exact ih _
    · exact ih _

theorem selectBest_none_iff (tL : List Char) (cl : List (Char × Nat)) :
    ∀ (l : List (List Nat)),
      selectBest tL cl l none = none ↔
        ∀ c ∈ l, hasLessThanMaximumCharacters tL c cl = false := by
  intro l
  induction l with
  | nil => simp [selectBest]
  | cons c rest ih =>
    simp only [selectBest, bestUpdate]
    split
    case isTrue hfilt =>
      constructor
      · intro h
        split at h
        · simp at h
        · exact absurd h (selectBest_some_ne_none tL cl rest _)
      · intro h
        have := h c (List.mem_cons_self _ _)
        rw [hfilt] at this
        cases this
    case isFalse hfilt =>
      rw [ih]
      constructor
      · intro h x hx
        rcases List.mem_cons.mp hx with rfl | hx2
        · simpa using hfilt
        · exact h x hx2
      · intro h x hx
        exact h x (List.mem_cons_of_mem _ hx)

theorem selectBest_cons_zero (tL : List Char) (cl : List (Char × Nat))
    (c : List Nat) (rest : List (List Nat))
    (hf : hasLessThanMaximumCharacters tL c cl = true)
    (hz : calculateExtraChars c = 0) :
    selectBest tL cl (c :: rest) none = some (0, c) := by
  simp [selectBest, bestUpdate, hf, hz]

theorem specStep_foldl_frozen :
    ∀ (l : List (List Nat)) (bb : Int × List Nat),
      (∀ x ∈ l, 0 ≤ calculateExtraChars x) → bb.1 = 0 →
      l.foldl specStep (some bb) = some bb := by
  intro l
  induction l with
  | nil =>
    intro bb _ _
    rfl
  | cons c rest ih =>
    intro bb hnn hz
    rw [List.foldl_cons]
    have hcnn := hnn c (List.mem_cons_self _ _)
    have hstep : specStep (some bb) c = some bb := by
      simp only [specStep]
      rw [if_neg (by omega)]
    rw [hstep]
    exact ih bb (fun x hx => hnn x (List.mem_cons_of_mem _ hx)) hz

theorem selectBest_eq_foldl (tL : List Char) (cl : List (Char × Nat)) :
    ∀ (l : List (List Nat)) (b : Option (Int × List Nat)),
      (∀ x ∈ l, 0 ≤ calculateExtraChars x) →
      (∀ bb, b = some bb → 0 ≤ bb.1) →
      selectBest tL cl l b =
        (l.filter (fun c => hasLessThanMaximumCharacters tL c cl)).foldl specStep b := by
  intro l
  induction l with
  | nil =>
    intro b _ _
    rfl
  | cons c rest ih =>
    intro b hnn hb
    have hnn2 : ∀ x ∈ rest, 0 ≤ calculateExtraChars x :=
      fun x hx => hnn x (List.mem_cons_of_mem _ hx)
    have hnnF : ∀ x ∈ rest.filter (fun d => hasLessThanMaximumCharacters tL d cl),
        0 ≤ calculateExtraChars x :=
      fun x hx => hnn2 x (List.mem_of_mem_filter hx)
    have hcnn : 0 ≤ calculateExtraChars c := hnn c (List.mem_cons_self _ _)
    by_cases hf : hasLessThanMaximumCharacters tL c cl = true
    · rw [List.filter_cons, if_pos hf, List.foldl_cons]
      rcases b with _ | ⟨eb, sb⟩
      · simp only [selectBest, bestUpdate, specStep]
        rw [if_pos hf]
        split
        next hz =>
          exact (specStep_foldl_frozen _ _ hnnF (by simpa using hz)).symm
        next hz =>
          exact ih (some (calculateExtraChars c, c)) hnn2
            (by intro bb hbb; cases hbb; simpa using hcnn)
      · have hebnn : 0 ≤ eb := by simpa using hb (eb, sb) rfl
        simp only [selectBest, bestUpdate, specStep]
        rw [if_pos hf]
        by_cases hcmp : calculateExtraChars c < eb
        · rw [if_pos (show eb > calculateExtraChars c from hcmp), if_pos hcmp]
          split
          next hz =>
            exact (specStep_foldl_frozen _ _ hnnF (by simpa using hz)).symm
          next hz =>
            exact ih (some (calculateExtraChars c, c)) hnn2
              (by intro bb hbb; cases hbb; simpa using hcnn)
        · rw [if_neg (show ¬eb > calculateExtraChars c from hcmp), if_neg hcmp]
          split
          next hz =>
            exact (specStep_foldl_frozen _ _ hnnF (by simpa using hz)).symm
          next hz =>
            exact ih (some (eb, sb)) hnn2
              (by intro bb hbb; cases hbb; simpa using hebnn)
    · rw [List.filter_cons, if_neg hf]
      simp only [selectBest]
      rw [if_neg hf]
      exact ih b hnn2 hb

theorem specStep_foldl_argmin :
    ∀ (l : List (List Nat)) (b : Option (Int × List Nat)) (e : Int) (s : List Nat),
      l.foldl specStep b = some (e, s) →
      (b = some (e, s) ∧ ∀ c ∈ l, e ≤ calculateExtraChars c) ∨
      (∃ l1 l2, l = l1 ++ s :: l2 ∧ e = calculateExtraChars s ∧
        (∀ bb, b = some bb → e < bb.1) ∧
        (∀ c ∈ l1, e < calculateExtraChars c) ∧
        (∀ c ∈ l2, e ≤ calculateExtraChars c)) := by
  intro l
  induction l with
  | nil =>
    intro b e s h
    exact Or.inl ⟨h, by simp⟩
  | cons c rest ih =>
    intro b e s h
    rw [List.foldl_cons] at h
    rcases ih _ _ _ h with ⟨hb, hrest⟩ | ⟨l1, l2, heq, hes, hlt, hl1, hl2⟩
    · rcases b with _ | ⟨eb, sb⟩
      · simp only [specStep, Option.some.injEq, Prod.mk.injEq] at hb
        obtain ⟨he, hs⟩ := hb
        subst he
        subst hs
        refine Or.inr ⟨[], rest, rfl, rfl, ?_, ?_, ?_⟩
        · intro bb hbb
          cases hbb
        · intro x hx
          simp at hx
        · exact hrest
      · simp only [specStep] at hb
        split at hb
        next hcmp =>
          simp only [Option.some.injEq, Prod.mk.injEq] at hb
          obtain ⟨he, hs⟩ := hb
          subst he
          subst hs
          refine Or.inr ⟨[], rest, rfl, rfl, ?_, ?_, ?_⟩
          · intro bb hbb
            cases hbb
            exact hcmp
          · intro x hx
            simp at hx
          · exact hrest
        next hcmp =>
          simp only [Option.some.injEq, Prod.mk.injEq] at hb
          obtain ⟨he, hs⟩ := hb
          subst he
          subst hs
          refine Or.inl ⟨rfl, ?_⟩
          intro x hx
          rcases List.mem_cons.mp hx with rfl | hx2
          · show eb ≤ calculateExtraChars x
            omega
          · exact hrest x hx2
    · have hkey : (∀ bb, b = some bb → e < bb.1) ∧ e < calculateExtraChars c := by
        rcases b with _ | ⟨eb, sb⟩
        · refine ⟨(by intro bb hbb; cases hbb), ?_⟩
          have h1 : e < calculateExtraChars c := hlt (calculateExtraChars c, c) rfl
          exact h1
        · simp only [specStep] at hlt
          split at hlt
          next hcmp =>
            have h1 : e < calculateExtraChars c := hlt (calculateExtraChars c, c) rfl
            refine ⟨?_, h1⟩
            intro bb hbb
            cases hbb
            show e < eb
            omega
          next hcmp =>
            have h1 : e < eb := hlt (eb, sb) rfl
            refine ⟨?_, ?_⟩
            · intro bb hbb
              cases hbb
              exact h1
            · omega
      refine Or.inr ⟨c :: l1, l2, by rw [heq, List.cons_append], hes, hkey.1, ?_, hl2⟩
      intro x hx
      rcases List.mem_cons.mp hx with rfl | hx2
      · exact hkey.2
      · exact hl1 x hx2

theorem selectBest_shortcircuit (tL : List Char) (cl : List (Char × Nat)) :
    ∀ (pre : List (List Nat)) (b : Option (Int × List Nat))
      (c : List Nat) (rest rest2 : List (List Nat)),
      (∀ x ∈ pre, 0 ≤ calculateExtraChars x) →
      (∀ bb, b = some bb → 0 ≤ bb.1) →
      hasLessThanMaximumCharacters tL c cl = true →
      calculateExtraChars c = 0 →
      selectBest tL cl (pre ++ c :: rest) b = selectBest tL cl (pre ++ c :: rest2) b := by
  intro pre
  induction pre with
  | nil =>
    intro b c rest rest2 _ hb hf hz
    simp only [List.nil_append]
    rcases b with _ | ⟨eb, sb⟩
    · rw [selectBest_cons_zero tL cl c rest hf hz, selectBest_cons_zero tL cl c rest2 hf hz]
    · have hebnn : 0 ≤ eb := by simpa using hb (eb, sb) rfl
      simp only [selectBest, bestUpdate]
      rw [if_pos hf, if_pos hf]
      by_cases hcmp : eb > calculateExtraChars c
      · rw [if_pos hcmp]
        have h1 : (calculateExtraChars c, c).1 = 0 := hz
        rw [if_pos h1, if_pos h1]
      · rw [if_neg hcmp]
        have h1 : (eb, sb).1 = 0 := by
          show eb = 0
          omega
        rw [if_pos h1, if_pos h1]
  | cons p pre2 ih =>
    intro b c rest rest2 hpre hb hf hz
    have hpre2 : ∀ x ∈ pre2, 0 ≤ calculateExtraChars x :=
      fun x hx => hpre x (List.mem_cons_of_mem _ hx)
    have hpnn : 0 ≤ calculateExtraChars p := hpre p (List.mem_cons_self _ _)
    rcases b with _ | ⟨eb, sb⟩
    · simp only [List.cons_append, selectBest, bestUpdate]
      by_cases hfp : hasLessThanMaximumCharacters tL p cl = true
      · rw [if_pos hfp, if_pos hfp]
        split
        next hzp => rfl
        next hzp =>
          exact ih (some (calculateExtraChars p, p)) c rest rest2 hpre2
            (by intro bb hbb; cases hbb; simpa using hpnn) hf hz
      · rw [if_neg hfp, if_neg hfp]
        exact ih none c rest rest2 hpre2 (by intro bb hbb; cases hbb) hf hz
    · have hebnn : 0 ≤ eb := by simpa using hb (eb, sb) rfl
      simp only [List.cons_append, selectBest, bestUpdate]
      by_cases hfp : hasLessThanMaximumCharacters tL p cl = true
      · rw [if_pos hfp, if_pos hfp]
        by_cases hcmp : eb > calculateExtraChars p
        · rw [if_pos hcmp]
          split
          next hzp => rfl
          next hzp =>
            exact ih (some (calculateExtraChars p, p)) c rest rest2 hpre2
              (by intro bb hbb; cases hbb; simpa using hpnn) hf hz
        · rw [if_neg hcmp]
          split
          next hzp => rfl
          next hzp =>
            exact ih (some (eb, sb)) c rest rest2 hpre2
              (by intro bb hbb; cases hbb; simpa using hebnn) hf hz
      · rw [if_neg hfp, if_neg hfp]
        exact ih (some (eb, sb)) c rest rest2 hpre2 hb hf hz

/-! ### Self-match -/

theorem buildOcc_self_aux (t : List Char) :
    ∀ (n j : Nat) (acc : List (List Nat)),
      n = t.length - j →
      buildStart acc = j →
      ∃ suffix, buildOccAux t (t.drop j) acc = some (acc ++ suffix) ∧
        suffix.map (fun l => l.headD 0) = List.range' j (t.length - j) ∧
        ∀ l ∈ suffix, l ≠ [] := by
  intro n
  induction n with
  | zero =>
    intro j acc hn hstart
    have hje : t.length ≤ j := by omega
    rw [List.drop_eq_nil_iff.mpr hje]
    refine ⟨[], by simp [buildOccAux], ?_, by simp⟩
    rw [show t.length - j = 0 by omega]
    simp
  | succ m ih =>
    intro j acc hn hstart
    have hj : j < t.length := by omega
    rw [List.drop_eq_getElem_cons hj]
    simp only [buildOccAux]
    rw [hstart]
    have hgd : t[j] = t.getD j ' ' := (List.getD_eq_getElem t ' ' hj).symm
    rw [hgd]
    have hne := findOccurences_self_ne_nil hj
    rw [if_neg (by simpa [List.isEmpty_iff] using hne)]
    have hstart2 : buildStart (acc ++ [findOccurences t (t.getD j ' ') j]) = j + 1 := by
      rw [buildStart_concat]
      rw [findOccurences_self_headD hj]
    obtain ⟨suffix, h1, h2, h3⟩ := ih (j + 1) (acc ++ [findOccurences t (t.getD j ' ') j])
      (by omega) hstart2
    refine ⟨findOccurences t (t.getD j ' ') j :: suffix, ?_, ?_, ?_⟩
    · rw [h1]
      simp
    · simp only [List.map_cons, findOccurences_self_headD hj, h2]
      rw [show t.length - j = (t.length - (j + 1)) + 1 by omega]
      rw [List.range'_succ]
    · intro l hl
      rcases List.mem_cons.mp hl with rfl | hl2
      · exact hne
      · exact h3 l hl2

theorem calculateExtraChars_range (n : Nat) : calculateExtraChars (List.range n) = 0 := by
  have hlt : List.Chain' (· < ·) (List.range n) := (List.pairwise_lt_range n).chain'
  rw [calculateExtraChars_eq_zero_iff hlt]
  cases n with
  | zero => simp
  | succ m =>
    rw [List.chain'_range_succ]
    intro i _
    rfl

theorem range_headD (n : Nat) (h : 0 < n) : (List.range n).headD 0 = 0 := by
  obtain ⟨m, rfl⟩ : ∃ m, n = m + 1 := ⟨n - 1, by omega⟩
  rw [List.range_succ_eq_map]
  rfl

theorem range_getLastD (n : Nat) (h : 0 < n) : (List.range n).getLastD 0 = n - 1 := by
  obtain ⟨m, rfl⟩ : ∃ m, n = m + 1 := ⟨n - 1, by omega⟩
  rw [List.range_succ, List.getLastD_concat]
  omega

/-- The whole pipeline on a self match: matchFuzzy t t with no limits finds
the identity chain and scores it perfectly. -/
theorem matchFuzzy_self (t : List Char) (ht : t ≠ []) :
    matchFuzzy t t [] =
      some { offset := 0, positions := List.range t.length,
             extraChars := 0, trailingChars := 0 } := by
  have hlenT : (strLower t).length = t.length := by simp [strLower]
  have htpos : 0 < t.length := by
    cases t with
    | nil => exact absurd rfl ht
    | cons a b => simp
  obtain ⟨suffix, h1, h2, h3⟩ :=
    buildOcc_self_aux (strLower t) (strLower t).length 0 [] (by omega) rfl
  rw [List.drop_zero] at h1
  simp only [List.nil_append] at h1
  have hmap : suffix.map (fun l => l.headD 0) = List.range t.length := by
    rw [h2]
    rw [show (strLower t).length - 0 = t.length by omega]
    exact (List.range_eq_range' t.length).symm
  have hsuflen : suffix.length = t.length := by
    have := congrArg List.length hmap
    simpa using this
  have hchain : List.Chain' (fun l1 l2 => l1.headD 0 < l2.headD 0) suffix := by
    have := (List.pairwise_lt_range t.length).chain'
    rw [← hmap] at this
    exact (List.chain'_map (fun l : List Nat => l.headD 0)).mp this
  have hsufnil : suffix ≠ [] := by
    intro hcon
    rw [hcon] at hsuflen
    simp at hsuflen
    omega
  obtain ⟨rest, hrest⟩ := getPossibleCombinations_head suffix hsufnil h3 hchain
  rw [hmap] at hrest
  have hsel : selectBest (strLower t) [] (List.range t.length :: rest) none =
      some (0, List.range t.length) :=
    selectBest_cons_zero (strLower t) [] (List.range t.length) rest rfl
      (calculateExtraChars_range t.length)
  simp only [matchFuzzy]
  rw [if_neg (by simp [List.isEmpty_iff, ht])]
  split
  next heq =>
    rw [h1] at heq
    cases heq
  next lists heq =>
    rw [h1] at heq
    injection heq with heq
    subst heq
    split
    next heq2 =>
      rw [hrest, hsel] at heq2
      cases heq2
    next best heq2 =>
      rw [hrest, hsel] at heq2
      injection heq2 with heq2
      subst heq2
      simp only [Option.some.injEq, MatchResult.mk.injEq, range_headD t.length htpos,
        range_getLastD t.length htpos, eq_self_iff_true, true_and, and_true]
      omega

/-! ### Destructuring matchFuzzy -/

theorem strLower_getD (s : List Char) (i : Nat) :
    (strLower s).getD i ' ' = Char.toLower (s.getD i ' ') := by
  rw [strLower]
  rcases Nat.lt_or_ge i s.length with hi | hi
  · rw [List.getD_eq_getElem _ _ (by simpa using hi), List.getD_eq_getElem _ _ hi,
      List.getElem_map]
  · rw [List.getD_eq_default _ _ (by simpa using hi), List.getD_eq_default _ _ hi]
    decide

theorem getLastD_eq_getD_length {s : List Nat} :
    s.getLastD 0 = s.getD (s.length - 1) 0 := by
  rw [List.getLastD_eq_getLast?, List.getLast?_eq_getElem?, List.getD_eq_getElem?_getD]

theorem matchFuzzy_some_elim (q t : List Char) (cl : List (Char × Nat)) (r : MatchResult)
    (h : matchFuzzy q t cl = some r) :
    ∃ lists e s, buildOccAux (strLower t) (strLower q) [] = some lists ∧
      selectBest (strLower t) cl (getPossibleCombinations lists) none = some (e, s) ∧
      r = { offset := s.headD 0, positions := s, extraChars := e,
            trailingChars := (t.length : Int) - ((s.getLastD 0 : Int) + 1) } ∧
      t ≠ [] ∧ q ≠ [] ∧ q.length ≤ t.length := by
  simp only [matchFuzzy] at h
  split at h
  next hguard => cases h
  next hguard =>
    simp only [Bool.or_eq_true, List.isEmpty_iff, decide_eq_true_eq, not_or] at hguard
    obtain ⟨⟨ht, hq⟩, hlen⟩ := hguard
    split at h
    next heq => cases h
    next lists heq =>
      split at h
      next heq2 => cases h
      next best heq2 =>
        simp only [Option.some.injEq] at h
        refine ⟨lists, best.1, best.2, heq, ?_, h.symm, ht, hq, by omega⟩
        simpa using heq2

theorem buildOcc_combos_ne_nil (tL qL : List Char) (lists : List (List Nat))
    (hq : qL ≠ []) (h : buildOccAux tL qL [] = some lists) :
    getPossibleCombinations lists ≠ [] := by
  obtain ⟨hlen, _⟩ := buildOcc_lists_spec tL qL lists h
  have hnil : lists ≠ [] := by
    intro hcon
    subst hcon
    simp only [List.length_nil] at hlen
    exact hq (List.length_eq_zero.mp hlen.symm)
  obtain ⟨rest, hrest⟩ := getPossibleCombinations_head lists hnil
    (buildOcc_nonnil tL qL lists h) (buildOcc_chain tL qL lists h)
  rw [hrest]
  simp

/-! ### The claims -/

/-- C7: the claim is false of the code, which contradicts its own intent —
the same limit under key o versus key O changes the result of matchFuzzy on
the query fb against foo bar.  The filter lowercases the key (showing the
intended case-insensitive mapping) but then reads the limit object at the
lowercased key, so an uppercase key is never found and, as count > undefined
is false in JavaScript, never rejects a chain. -/
theorem characterLimit_key_case_sensitive :
    matchFuzzy ['f', 'b'] ['f', 'o', 'o', ' ', 'b', 'a', 'r'] [('o', 0)] = none ∧
    matchFuzzy ['f', 'b'] ['f', 'o', 'o', ' ', 'b', 'a', 'r'] [('O', 0)] =
      some { offset := 0, positions := [0, 4], extraChars := 3, trailingChars := 2 } := by
  decide

/-- C8: the comparator sort is a total -1/0/1-valued ordering over
MatchResult pairs, lexicographic by ascending extraChars, then offset, then
trailingChars, answering 0 exactly when those three fields agree; in
particular extraChars 0 at offset 5 ranks before extraChars 1 at offset 0. -/
theorem sort_spec :
    (∀ a b : MatchResult,
      (sort a b = -1 ∨ sort a b = 0 ∨ sort a b = 1) ∧
      (sort a b = 0 ↔ a.extraChars = b.extraChars ∧ a.offset = b.offset ∧
        a.trailingChars = b.trailingChars) ∧
      (sort a b = -1 ↔ (a.extraChars < b.extraChars ∨
        (a.extraChars = b.extraChars ∧ a.offset < b.offset) ∨
        (a.extraChars = b.extraChars ∧ a.offset = b.offset ∧
          a.trailingChars < b.trailingChars))) ∧
      (sort a b = 1 ↔ (b.extraChars < a.extraChars ∨
        (b.extraChars = a.extraChars ∧ b.offset < a.offset) ∨
        (b.extraChars = a.extraChars ∧ b.offset = a.offset ∧
          b.trailingChars < a.trailingChars)))) ∧
    sort { offset := 5, positions := [], extraChars := 0, trailingChars := 0 }
         { offset := 0, positions := [], extraChars := 1, trailingChars := 0 } = -1 := by
  constructor
  · intro a b
    unfold sort
    split_ifs <;> push_neg at * <;>
      simp only [eq_self_iff_true, false_iff, iff_false, true_iff, iff_true, false_or,
        or_false, true_or, or_true, true_and, and_true, not_or] <;>
      omega
  · decide

/-- C3: the claimed completeness of the enumerator is false — [0, 2, 3]
draws one position from each of the lists [0], [1, 2], [3] in order and is
strictly increasing, yet it is absent from the output (the only chain
produced is the greedy [0, 1, 3]). -/
theorem getPossibleCombinations_incomplete :
    List.Pairwise (· < ·) ([0, 2, 3] : List Nat) ∧
    (0 : Nat) ∈ ([0] : List Nat) ∧
    (2 : Nat) ∈ ([1, 2] : List Nat) ∧
    (3 : Nat) ∈ ([3] : List Nat) ∧
    ([0, 2, 3] : List Nat) ∉ getPossibleCombinations [[0], [1, 2], [3]] := by
  decide

/-- C6: the claim is false as stated — with the single limit entry O ↦ 0 the
span substring "foo " of the chain [0, 4] in foo bar contains the letter o
twice counting case-insensitively, exceeding the limit 0, yet the filter
keeps the chain, because the limit is looked up under the lowercased key o,
which the mapping does not contain. -/
theorem characterLimit_filter_cex :
    hasLessThanMaximumCharacters (strLower ['f', 'o', 'o', ' ', 'b', 'a', 'r'])
      [0, 4] [('O', 0)] = true ∧
    (substringJS (strLower ['f', 'o', 'o', ' ', 'b', 'a', 'r']) 0 4).countP
      (fun ch => ch.toLower == 'O'.toLower) = 2 := by
  decide

/-- C6 amended: the filter counts the occurrences of each key's lowercased
form inside target.substring(first position, last position) and discards the
chain iff, for some key of the mapping, the mapping entry under that
lowercased key is a limit strictly below the count (a key whose lowercase
form is absent imposes no constraint); in particular matchFuzzy of fb
against foo bar baz with the limit space ↦ 0 rejects its only chain and
reports no match. -/
theorem characterLimit_filter_spec :
    (∀ (t : List Char) (fc : List Nat) (cl : List (Char × Nat)),
      hasLessThanMaximumCharacters t fc cl = false ↔
        ∃ kv ∈ cl, ∃ limit, jsLookup cl kv.1.toLower = some limit ∧
          limit < (substringJS t (fc.headD 0) (fc.getLastD 0)).countP
            (fun ch => ch == kv.1.toLower)) ∧
    matchFuzzy ['f', 'b'] ['f', 'o', 'o', ' ', 'b', 'a', 'r', ' ', 'b', 'a', 'z']
      [(' ', 0)] = none := by
  exact ⟨hasLess_eq_false_iff, by decide⟩

/-- C3 amended: the enumerator is sound — every chain it outputs picks one
position from each occurrence list in order and is strictly increasing —
and, when the lists are nonempty with increasing first elements (the shape
the indexer hands it), the chain of first occurrences is produced, as the
first output chain; but the claimed completeness (that every strictly
increasing selection appears) is false, as the counterexample shows. -/
theorem getPossibleCombinations_spec :
    (∀ (lists : List (List Nat)) (s : List Nat), s ∈ getPossibleCombinations lists →
      s.length = lists.length ∧ List.Pairwise (· < ·) s ∧
      ∀ j, j < s.length → s.getD j 0 ∈ lists.getD j []) ∧
    (∀ lists : List (List Nat), lists ≠ [] → (∀ l ∈ lists, l ≠ []) →
      List.Chain' (fun l1 l2 => l1.headD 0 < l2.headD 0) lists →
      ∃ rest, getPossibleCombinations lists =
        (lists.map (fun l => l.headD 0)) :: rest) := by
  constructor
  · intro lists s hs
    obtain ⟨hlen, hchain, hmem⟩ :
        s.length = lists.length ∧ List.Chain' (· < ·) s ∧
          ∀ j (hj : j < s.length), s.get ⟨j, hj⟩ ∈ lists.getD j [] := by
      have hgs := getPossibleCombinations_sound lists s hs
      exact ⟨hgs.1, hgs.2.1, hgs.2.2⟩
    refine ⟨hlen, List.chain'_iff_pairwise.mp hchain, ?_⟩
    intro j hj
    have hm := hmem j hj
    rw [List.get_eq_getElem] at hm
    rw [List.getD_eq_getElem s 0 hj]
    exact hm
  · intro lists h1 h2 h3
    exact getPossibleCombinations_head lists h1 h2 h3

theorem getPossibleCombinations_spec_witness :
    (([0, 1, 3] : List Nat).length = ([[0], [1, 2], [3]] : List (List Nat)).length ∧
      List.Pairwise (· < ·) ([0, 1, 3] : List Nat) ∧
      ∀ j, j < ([0, 1, 3] : List Nat).length →
        ([0, 1, 3] : List Nat).getD j 0 ∈
          ([[0], [1, 2], [3]] : List (List Nat)).getD j []) ∧
    (∃ rest, getPossibleCombinations [[0], [1, 2], [3]] =
      (([[0], [1, 2], [3]] : List (List Nat)).map (fun l => l.headD 0)) :: rest) :=
  ⟨getPossibleCombinations_spec.1 [[0], [1, 2], [3]] [0, 1, 3] (by decide),
   getPossibleCombinations_spec.2 [[0], [1, 2], [3]] (by decide) (by decide)
     (by simp [List.chain'_cons])⟩

/-- C1: whenever matchFuzzy answers with a result, the result's positions
are strictly increasing, number exactly query.length, and at every index i
the target character at positions[i] equals the query character at i once
both are lowercased. -/
theorem matchFuzzy_positions_valid (q t : List Char) (cl : List (Char × Nat))
    (r : MatchResult) (h : matchFuzzy q t cl = some r) :
    List.Pairwise (· < ·) r.positions ∧
    r.positions.length = q.length ∧
    ∀ i, i < r.positions.length →
      Char.toLower (t.getD (r.positions.getD i 0) ' ') =
        Char.toLower (q.getD i ' ') := by
  obtain ⟨lists, e, s, hbuild, hsel, hr, ht, hq, hlenqt⟩ :=
    matchFuzzy_some_elim q t cl r h
  subst hr
  show List.Pairwise (· < ·) s ∧ s.length = q.length ∧
    ∀ i, i < s.length →
      Char.toLower (t.getD (s.getD i 0) ' ') = Char.toLower (q.getD i ' ')
  rcases selectBest_mem (strLower t) cl _ _ _ _ hsel with hcon | ⟨hmem, _, _⟩
  · cases hcon
  obtain ⟨hlen, hchain, hmemIdx⟩ :
      s.length = lists.length ∧ List.Chain' (· < ·) s ∧
        ∀ j (hj : j < s.length), s.get ⟨j, hj⟩ ∈ lists.getD j [] := by
    have hgs := getPossibleCombinations_sound lists s hmem
    exact ⟨hgs.1, hgs.2.1, hgs.2.2⟩
  obtain ⟨hql, hk⟩ := buildOcc_lists_spec (strLower t) (strLower q) lists hbuild
  have hlq : (strLower q).length = q.length := by simp [strLower]
  refine ⟨List.chain'_iff_pairwise.mp hchain, by omega, ?_⟩
  intro i hi
  have hi2 : i < (strLower q).length := by omega
  have hm := hmemIdx i hi
  rw [(hk i hi2).1] at hm
  have hchar := (mem_findOccurences.mp hm).2.2
  rw [strLower_getD, strLower_getD] at hchar
  rw [List.getD_eq_getElem s 0 hi]
  rw [List.get_eq_getElem] at hchar
  exact hchar

theorem matchFuzzy_positions_valid_witness :
    matchFuzzy ['f', 'b'] ['f', 'o', 'o', ' ', 'b', 'a', 'r'] []
        = some { offset := 0, positions := [0, 4], extraChars := 3, trailingChars := 2 } ∧
      (List.Pairwise (· < ·) ([0, 4] : List Nat) ∧
        ([0, 4] : List Nat).length = (['f', 'b'] : List Char).length ∧
        ∀ i, i < ([0, 4] : List Nat).length →
          Char.toLower ((['f', 'o', 'o', ' ', 'b', 'a', 'r'] : List Char).getD
              (([0, 4] : List Nat).getD i 0) ' ') =
            Char.toLower ((['f', 'b'] : List Char).getD i ' ')) :=
  ⟨by decide,
   matchFuzzy_positions_valid ['f', 'b'] ['f', 'o', 'o', ' ', 'b', 'a', 'r'] []
     { offset := 0, positions := [0, 4], extraChars := 3, trailingChars := 2 }
     (by decide)⟩

/-- C2: matchFuzzy answers the non-exceptional no-match value (and, being a
total function, never throws) exactly when the target is empty, the query is
empty, the target is shorter than the query, some query character has no
occurrence at or after its lower bound (the indexing loop answers none), or
every enumerated chain fails the character-limit filter — and in that last
case the enumerated chain list is itself nonempty, so the failure really is
the filter's doing; in every other case a MatchResult is returned. -/
theorem matchFuzzy_none_iff (q t : List Char) (cl : List (Char × Nat)) :
    matchFuzzy q t cl = none ↔
      (t = [] ∨ q = [] ∨ t.length < q.length ∨
        buildOccAux (strLower t) (strLower q) [] = none ∨
        ∃ lists, buildOccAux (strLower t) (strLower q) [] = some lists ∧
          getPossibleCombinations lists ≠ [] ∧
          ∀ c ∈ getPossibleCombinations lists,
            hasLessThanMaximumCharacters (strLower t) c cl = false) := by
  constructor
  · intro h
    simp only [matchFuzzy] at h
    split at h
    next hguard =>
      simp only [Bool.or_eq_true, List.isEmpty_iff, decide_eq_true_eq] at hguard
      rcases hguard with (h1 | h2) | h3
      · exact Or.inl h1
      · exact Or.inr (Or.inl h2)
      · exact Or.inr (Or.inr (Or.inl h3))
    next hguard =>
      simp only [Bool.or_eq_true, List.isEmpty_iff, decide_eq_true_eq, not_or] at hguard
      obtain ⟨⟨ht, hq⟩, hlen⟩ := hguard
      split at h
      next heq => exact Or.inr (Or.inr (Or.inr (Or.inl heq)))
      next lists heq =>
        split at h
        next heq2 =>
          refine Or.inr (Or.inr (Or.inr (Or.inr ⟨lists, heq, ?_,
            (selectBest_none_iff _ _ _).mp heq2⟩)))
          exact buildOcc_combos_ne_nil (strLower t) (strLower q) lists
            (by simpa [strLower] using hq) heq
        next best heq2 => cases h
  · intro h
    simp only [matchFuzzy]
    split
    next => rfl
    next hguard =>
      simp only [Bool.or_eq_true, List.isEmpty_iff, decide_eq_true_eq, not_or] at hguard
      obtain ⟨⟨ht, hq⟩, hlen⟩ := hguard
      rcases h with h1 | h1 | h1 | h1 | ⟨lists, hb, _, hall⟩
      · exact absurd h1 ht
      · exact absurd h1 hq
      · exact absurd h1 hlen
      · split
        next => rfl
        next lists heq =>
          rw [h1] at heq
          cases heq
      · split
        next => rfl
        next lists2 heq =>
          rw [hb] at heq
          injection heq with heq
          subst heq
          split
          next => rfl
          next best heq2 =>
            rw [(selectBest_none_iff _ _ _).mpr hall] at heq2
            cases heq2

/-- C4: the occurrence list built for query-character index 0 holds exactly
the positions of that character in the lowercased target at or after 0, and
the list for index i > 0 exactly those at or after (first occurrence
recorded for character i-1) + 1, each list strictly ascending. -/
theorem occurrence_lists_spec (q t : List Char) (lists : List (List Nat))
    (h : buildOccAux (strLower t) (strLower q) [] = some lists) :
    lists.length = q.length ∧
    ∀ i, i < lists.length →
      List.Pairwise (· < ·) (lists.getD i []) ∧
      ∀ p, p ∈ lists.getD i [] ↔
        ((if i = 0 then 0 else (lists.getD (i - 1) []).headD 0 + 1) ≤ p ∧
          p < t.length ∧
          Char.toLower (t.getD p ' ') = Char.toLower (q.getD i ' ')) := by
  obtain ⟨hlen, hk⟩ := buildOcc_lists_spec (strLower t) (strLower q) lists h
  have hlq : (strLower q).length = q.length := by simp [strLower]
  have hlt : (strLower t).length = t.length := by simp [strLower]
  refine ⟨by omega, ?_⟩
  intro i hi
  have hi2 : i < (strLower q).length := by omega
  obtain ⟨heq, _⟩ := hk i hi2
  constructor
  · rw [heq]
    exact pairwise_findOccurences _ _ _
  · intro p
    rw [heq, mem_findOccurences]
    have hbound : occBound lists i =
        (if i = 0 then 0 else (lists.getD (i - 1) []).headD 0 + 1) := rfl
    rw [hbound]
    constructor
    · rintro ⟨ha, hb, hc⟩
      refine ⟨ha, by omega, ?_⟩
      rw [← strLower_getD, ← strLower_getD]
      exact hc
    · rintro ⟨ha, hb, hc⟩
      refine ⟨ha, by omega, ?_⟩
      rw [strLower_getD, strLower_getD]
      exact hc

theorem occurrence_lists_spec_witness :
    buildOccAux (strLower ['a', 'b', 'a']) (strLower ['a', 'b']) []
        = some [[0, 2], [1]] ∧
      (([[0, 2], [1]] : List (List Nat)).length = (['a', 'b'] : List Char).length ∧
        ∀ i, i < ([[0, 2], [1]] : List (List Nat)).length →
          List.Pairwise (· < ·) (([[0, 2], [1]] : List (List Nat)).getD i []) ∧
          ∀ p, p ∈ ([[0, 2], [1]] : List (List Nat)).getD i [] ↔
            ((if i = 0 then 0
              else (([[0, 2], [1]] : List (List Nat)).getD (i - 1) []).headD 0 + 1) ≤ p ∧
              p < (['a', 'b', 'a'] : List Char).length ∧
              Char.toLower ((['a', 'b', 'a'] : List Char).getD p ' ') =
                Char.toLower ((['a', 'b'] : List Char).getD i ' '))) :=
  ⟨by decide,
   occurrence_lists_spec ['a', 'b'] ['a', 'b', 'a'] [[0, 2], [1]] (by decide)⟩

/-- C9: every MatchResult produced by matchFuzzy satisfies the field
invariants — offset is the first position, trailingChars the length of the
target tail after the last position, extraChars the sum of the gaps between
consecutive positions, both scores nonnegative, and extraChars is 0 exactly
when the matched positions are contiguous. -/
theorem matchResult_invariants (q t : List Char) (cl : List (Char × Nat))
    (r : MatchResult) (h : matchFuzzy q t cl = some r) :
    r.offset = r.positions.headD 0 ∧
    r.trailingChars = (t.length : Int) - ((r.positions.getLastD 0 : Int) + 1) ∧
    r.extraChars = ∑ i ∈ Finset.range (r.positions.length - 1),
      ((r.positions.getD (i + 1) 0 : Int) - (r.positions.getD i 0 : Int) - 1) ∧
    0 ≤ r.extraChars ∧ 0 ≤ r.trailingChars ∧
    (r.extraChars = 0 ↔ List.Chain' (fun a b => b = a + 1) r.positions) := by
  obtain ⟨lists, e, s, hbuild, hsel, hr, ht, hq, hlenqt⟩ :=
    matchFuzzy_some_elim q t cl r h
  subst hr
  show s.headD 0 = s.headD 0 ∧
    (t.length : Int) - ((s.getLastD 0 : Int) + 1) =
      (t.length : Int) - ((s.getLastD 0 : Int) + 1) ∧
    e = ∑ i ∈ Finset.range (s.length - 1),
      ((s.getD (i + 1) 0 : Int) - (s.getD i 0 : Int) - 1) ∧
    0 ≤ e ∧ 0 ≤ (t.length : Int) - ((s.getLastD 0 : Int) + 1) ∧
    (e = 0 ↔ List.Chain' (fun a b => b = a + 1) s)
  rcases selectBest_mem (strLower t) cl _ _ _ _ hsel with hcon | ⟨hmem, hecalc, _⟩
  · cases hcon
  obtain ⟨hlen, hchain, hmemIdx⟩ :
      s.length = lists.length ∧ List.Chain' (· < ·) s ∧
        ∀ j (hj : j < s.length), s.get ⟨j, hj⟩ ∈ lists.getD j [] := by
    have hgs := getPossibleCombinations_sound lists s hmem
    exact ⟨hgs.1, hgs.2.1, hgs.2.2⟩
  obtain ⟨hql, hk⟩ := buildOcc_lists_spec (strLower t) (strLower q) lists hbuild
  have hlq : (strLower q).length = q.length := by simp [strLower]
  have hlt : (strLower t).length = t.length := by simp [strLower]
  have hspos : 0 < s.length := by
    rcases Nat.eq_zero_or_pos s.length with hz | hpos
    · exfalso
      have : q.length = 0 := by omega
      exact hq (List.length_eq_zero.mp this)
    · exact hpos
  have hlast : s.getLastD 0 < t.length := by
    have hj : s.length - 1 < s.length := by omega
    have hm := hmemIdx (s.length - 1) hj
    have hj2 : s.length - 1 < (strLower q).length := by omega
    rw [(hk (s.length - 1) hj2).1] at hm
    have hval := (mem_findOccurences.mp hm).2.1
    have he : s.getLastD 0 = s.get ⟨s.length - 1, hj⟩ := by
      rw [getLastD_eq_getD_length, List.getD_eq_getElem s 0 hj]
      simp [List.get_eq_getElem]
    rw [he]
    omega
  refine ⟨rfl, rfl, ?_, ?_, ?_, ?_⟩
  · rw [hecalc]
    exact calculateExtraChars_eq_sum s
  · rw [hecalc]
    exact calculateExtraChars_nonneg hchain
  · omega
  · rw [hecalc]
    exact calculateExtraChars_eq_zero_iff hchain

theorem matchResult_invariants_witness :
    matchFuzzy ['o', 'o'] ['f', 'o', 'o', ' ', 'b', 'a', 'r'] []
        = some { offset := 1, positions := [1, 2], extraChars := 0, trailingChars := 4 } ∧
      ((1 : Nat) = ([1, 2] : List Nat).headD 0 ∧
        (4 : Int) = ((7 : Nat) : Int) - ((([1, 2] : List Nat).getLastD 0 : Int) + 1) ∧
        (0 : Int) = ∑ i ∈ Finset.range (([1, 2] : List Nat).length - 1),
          ((([1, 2] : List Nat).getD (i + 1) 0 : Int) -
            (([1, 2] : List Nat).getD i 0 : Int) - 1) ∧
        (0 : Int) ≤ 0 ∧ (0 : Int) ≤ 4 ∧
        ((0 : Int) = 0 ↔ List.Chain' (fun a b => b = a + 1) ([1, 2] : List Nat))) := by
  constructor
  · decide
  · exact matchResult_invariants ['o', 'o'] ['f', 'o', 'o', ' ', 'b', 'a', 'r'] []
      { offset := 1, positions := [1, 2], extraChars := 0, trailingChars := 4 } (by decide)

/-- C5: among the enumerated chains that survive the character-limit filter,
matchFuzzy returns one that attains the smallest extraChars, and it is the
earliest such chain in iteration order (every survivor before it scores
strictly worse); moreover the selection loop stops as soon as the running
best reaches extraChars 0 — whatever follows a surviving zero-gap chain has
no influence on the outcome. -/
theorem selection_spec (q t : List Char) (cl : List (Char × Nat))
    (r : MatchResult) (h : matchFuzzy q t cl = some r) :
    (∃ lists l1 l2,
      buildOccAux (strLower t) (strLower q) [] = some lists ∧
      r.positions ∈ getPossibleCombinations lists ∧
      hasLessThanMaximumCharacters (strLower t) r.positions cl = true ∧
      r.extraChars = calculateExtraChars r.positions ∧
      (∀ c ∈ getPossibleCombinations lists,
        hasLessThanMaximumCharacters (strLower t) c cl = true →
        r.extraChars ≤ calculateExtraChars c) ∧
      (getPossibleCombinations lists).filter
          (fun c => hasLessThanMaximumCharacters (strLower t) c cl) =
        l1 ++ r.positions :: l2 ∧
      (∀ c ∈ l1, r.extraChars < calculateExtraChars c)) ∧
    (∀ (tL : List Char) (cl2 : List (Char × Nat)) (pre : List (List Nat))
      (c : List Nat) (rest rest2 : List (List Nat)),
      (∀ x ∈ pre, 0 ≤ calculateExtraChars x) →
      hasLessThanMaximumCharacters tL c cl2 = true →
      calculateExtraChars c = 0 →
      selectBest tL cl2 (pre ++ c :: rest) none =
        selectBest tL cl2 (pre ++ c :: rest2) none) := by
  obtain ⟨lists, e, s, hbuild, hsel, hr, ht, hq, hlenqt⟩ :=
    matchFuzzy_some_elim q t cl r h
  have hpos : r.positions = s := by rw [hr]
  have hext : r.extraChars = e := by rw [hr]
  rw [hpos, hext]
  constructor
  · rcases selectBest_mem (strLower t) cl _ _ _ _ hsel with hcon | ⟨hmem, hecalc, hfilt⟩
    · cases hcon
    have hnn : ∀ c ∈ getPossibleCombinations lists, 0 ≤ calculateExtraChars c := by
      intro c hc
      exact calculateExtraChars_nonneg (getPossibleCombinations_sound lists c hc).2.1
    have heqf := selectBest_eq_foldl (strLower t) cl (getPossibleCombinations lists) none
      hnn (by intro bb hbb; cases hbb)
    have hsel2 := hsel
    rw [heqf] at hsel2
    rcases specStep_foldl_argmin _ _ _ _ hsel2 with ⟨hcon, _⟩ | ⟨l1, l2, hdec, hes, _, hl1, hl2⟩
    · cases hcon
    refine ⟨lists, l1, l2, hbuild, hmem, hfilt, hecalc, ?_, hdec, hl1⟩
    intro c hc hcf
    have hcmem : c ∈ (getPossibleCombinations lists).filter
        (fun d => hasLessThanMaximumCharacters (strLower t) d cl) :=
      List.mem_filter.mpr ⟨hc, hcf⟩
    rw [hdec] at hcmem
    rcases List.mem_append.mp hcmem with h1 | h1
    · exact le_of_lt (hl1 c h1)
    · rcases List.mem_cons.mp h1 with rfl | h2
      · omega
      · exact hl2 c h2
  · intro tL cl2 pre c rest rest2 hp hf hz
    exact selectBest_shortcircuit tL cl2 pre none c rest rest2 hp
      (by intro bb hbb; cases hbb) hf hz

theorem selection_spec_witness :
    matchFuzzy ['f', 'b'] ['f', 'o', 'o', ' ', 'b', 'a', 'r'] []
        = some { offset := 0, positions := [0, 4], extraChars := 3, trailingChars := 2 } ∧
      ((∃ lists l1 l2,
        buildOccAux (strLower ['f', 'o', 'o', ' ', 'b', 'a', 'r'])
            (strLower ['f', 'b']) [] = some lists ∧
        ([0, 4] : List Nat) ∈ getPossibleCombinations lists ∧
        hasLessThanMaximumCharacters (strLower ['f', 'o', 'o', ' ', 'b', 'a', 'r'])
          [0, 4] [] = true ∧
        (3 : Int) = calculateExtraChars [0, 4] ∧
        (∀ c ∈ getPossibleCombinations lists,
          hasLessThanMaximumCharacters (strLower ['f', 'o', 'o', ' ', 'b', 'a', 'r'])
            c [] = true →
          (3 : Int) ≤ calculateExtraChars c) ∧
        (getPossibleCombinations lists).filter
            (fun c => hasLessThanMaximumCharacters
              (strLower ['f', 'o', 'o', ' ', 'b', 'a', 'r']) c []) =
          l1 ++ ([0, 4] : List Nat) :: l2 ∧
        (∀ c ∈ l1, (3 : Int) < calculateExtraChars c)) ∧
      (∀ (tL : List Char) (cl2 : List (Char × Nat)) (pre : List (List Nat))
        (c : List Nat) (rest rest2 : List (List Nat)),
        (∀ x ∈ pre, 0 ≤ calculateExtraChars x) →
        hasLessThanMaximumCharacters tL c cl2 = true →
        calculateExtraChars c = 0 →
        selectBest tL cl2 (pre ++ c :: rest) none =
          selectBest tL cl2 (pre ++ c :: rest2) none)) :=
  ⟨by decide,
   selection_spec ['f', 'b'] ['f', 'o', 'o', ' ', 'b', 'a', 'r'] []
     { offset := 0, positions := [0, 4], extraChars := 3, trailingChars := 2 }
     (by decide)⟩

/-- C10: matching a nonempty string against itself gives a perfect
contiguous match at the start — offset 0, positions 0 .. length-1, no extra
characters and no trailing characters. -/
theorem matchFuzzy_self_match (t : List Char) (h : t ≠ []) :
    matchFuzzy t t [] =
      some { offset := 0, positions := List.range t.length,
             extraChars := 0, trailingChars := 0 } :=
  matchFuzzy_self t h

theorem matchFuzzy_self_match_witness :
    (['a', 'b', 'a'] : List Char) ≠ [] ∧
    matchFuzzy ['a', 'b', 'a'] ['a', 'b', 'a'] [] =
      some { offset := 0, positions := List.range 3,
             extraChars := 0, trailingChars := 0 } :=
  ⟨by decide, matchFuzzy_self_match ['a', 'b', 'a'] (by decide)⟩
